import Mathlib

/-!
Verification of the dataset-management core (`datacube/scripts/dataset.py`) and the
date-sequence utility (`datacube/utils/dates.py`) against their design specification.

The Python code is shallowly embedded: pure functions become Lean functions, the
stateful memoizing resolver becomes explicit state passing, exceptions become
`Option`/sum results, and external collaborators (the catalog index, the structural
containment test of `datacube.utils.changes`) are parameters of the embedded
functions.  Identities (UUIDs) are modelled as `Nat`, documents and products are
modelled by opaque `Nat` payloads where only equality matters, timestamps as `Int`.
-/

/-! ## Date sequences (`datacube/utils/dates.py`, `date_sequence`)

`date_sequence(start, end, stats_duration, step_size)` iterates candidate start
dates produced by `rrule` and yields `(start_date, start_date + stats_duration)`
exactly when `start_date + stats_duration <= end`.  The `rrule` iteration is
external (dateutil); it is modelled by the list `starts` of candidate start dates,
and adding the parsed duration is modelled by integer addition of `dur`. -/

def date_sequence (starts : List Int) (dur : Int) (endd : Int) : List (Int × Int) :=
  starts.filterMap (fun s => if s + dur ≤ endd then some (s, s + dur) else none)

/-! ## Dataset/product measurement consistency (`check_dataset_consistent`, `load_datasets`)

`dataset.type.measurements.keys()` is modelled by `productMeasurements`;
`dataset.measurements` (which may be `None`) by an `Option` of its key list. -/

structure DsForCheck where
  id : Nat
  productMeasurements : List String
  measurements : Option (List String)
deriving DecidableEq

def check_dataset_consistent (ds : DsForCheck) : Bool × Option String :=
  if ds.productMeasurements = [] then (true, none)
  else
    match ds.measurements with
    | none => (false, some "No measurements defined for a dataset")
    | some ms =>
      if ∀ m ∈ ds.productMeasurements, m ∈ ms then (true, none)
      else (false, some "measurement fields do not match type specification")

/-- `load_datasets` yields only resolved datasets that pass
`check_dataset_consistent`; resolution failures (`none`) and inconsistent
datasets are logged and skipped.  The input list stands for the stream of
per-document resolution outcomes. -/
def load_datasets (resolved : List (Option DsForCheck)) : List DsForCheck :=
  resolved.filterMap (fun r =>
    match r with
    | none => none
    | some ds => if (check_dataset_consistent ds).1 then some ds else none)

/-! ## Old-location reconciliation on update (`loc_action` inside `update_cmd`)

`loc_action` with `dry_run = false`: returns `none` exactly where the Python
function returns `None` having taken no action, `warned` where it logs
"Refusing to ... old location, there are several" and takes no action, and
`acted i o` where it calls `action(existing_ds.id, old_uri)` (the
`archive_location` / `remove_location` catalog operation).  The Python
destructuring `new_uri, = new_ds.uris` assumes a single new location; the
embedding returns `Option.none` (an exception) outside that case. -/

inductive LocOutcome where
  | noAction
  | warned
  | acted (dsid : Nat) (old_uri : String)
deriving DecidableEq

structure UDataset where
  id : Nat
  uris : List String
deriving DecidableEq

def loc_action (new_ds existing_ds : UDataset) : Option LocOutcome :=
  if existing_ds.uris.length = 0 then some .noAction
  else if 1 < existing_ds.uris.length then some .warned
  else
    match new_ds.uris, existing_ds.uris with
    | [new_uri], [old_uri] =>
      some (if new_uri = old_uri then .noAction else .acted existing_ds.id old_uri)
    | _, _ => none

/-! ## Product matching (`product_matcher`)

The structural containment test `changes.contains` lives outside the two
embedded source files, so it is a parameter `c : Nat → Nat → Bool` taking a
document and a rule signature; `doc.get('id', ...)` is the parameter `docIdOf`. -/

structure Product where
  name : String
deriving DecidableEq

structure PRule where
  product : Product
  signature : Nat
deriving DecidableEq

inductive MatchOutcome where
  | ok (p : Product)
  | singleNoMatch
  | noMatch (docId : String)
  | ambiguous (docId : String) (names : List String)
deriving DecidableEq

def product_matcher (c : Nat → Nat → Bool) (docIdOf : Nat → String)
    (rules : List PRule) (doc : Nat) : MatchOutcome :=
  match rules with
  | [r] => if c doc r.signature then .ok r.product else .singleNoMatch
  | _ =>
    match (rules.filter (fun r => c doc r.signature)).map (fun r => r.product) with
    | [] => .noMatch (docIdOf doc)
    | [p] => .ok p
    | ps => .ambiguous (docIdOf doc) (ps.map (fun p => p.name))

/-! ## Derived-set walk (`_get_derived_set`)

The catalog's `index.datasets.get_derived` is the parameter `g : Nat → List Nat`
mapping an identity to the identities of datasets directly derived from it
(each derived `Dataset` object is represented by its id).  `to_process` is a
Python `set` with arbitrary-element `pop()`; the embedding is a `Finset ℕ`
popped at its minimum, one admissible execution of the source.  The returned
pair carries the final `derived_set` and the trace of identities passed to
`get_derived`, in call order.  The `fuel` argument only bounds the number of
loop iterations: `none` means the loop was still running when fuel ran out. -/

def derivedLoop (g : Nat → List Nat) :
    Nat → Finset Nat → Finset Nat → List Nat → Option (Finset Nat × List Nat)
  | 0, tp, acc, tr => if tp = ∅ then some (acc, tr) else none
  | fuel + 1, tp, acc, tr =>
    if h : tp.Nonempty then
      derivedLoop g fuel ((tp.erase (tp.min' h)) ∪ (g (tp.min' h)).toFinset)
        (acc ∪ (g (tp.min' h)).toFinset) (tr ++ [tp.min' h])
    else some (acc, tr)

def get_derived_set (g : Nat → List Nat) (id0 : Nat) (fuel : Nat) :
    Option (Finset Nat × List Nat) :=
  derivedLoop g fuel {id0} {id0} []

/-- Transitive forward-lineage reachability: `Reaches g a b` holds when `b` is
`a` itself or can be reached from `a` by following `get_derived` edges. -/
inductive Reaches (g : Nat → List Nat) : Nat → Nat → Prop where
  | refl (a : Nat) : Reaches g a a
  | step {a b c : Nat} : Reaches g a b → c ∈ g b → Reaches g a c

/-- Weight function used to bound the derived-set walk on an acyclic relation:
`wAux g n x` is `1` plus the weights of the children of `x`, computed to
recursion depth `n`. -/
def wAux (g : Nat → List Nat) : Nat → Nat → Nat
  | 0, _ => 1
  | n + 1, x => 1 + ((g x).map (wAux g n)).sum

def wfun (g : Nat → List Nat) (rank : Nat → Nat) (x : Nat) : Nat :=
  wAux g (rank x) x

/-! ## Cascading restore (`_restore_one`, `dry_run = false`)

`derived_set` stands for the result of `_get_derived_set(index, id_)` (the root
dataset together with everything transitively derived from it);
`target` for `index.datasets.get(id_)`.  The function returns the set of
datasets handed to `index.datasets.restore`. -/

structure ArDs where
  id : Nat
  is_archived : Bool
  archived_time : Int
deriving DecidableEq

def within_tolerance (target : ArDs) (tolerance : Int) (d : ArDs) : Bool :=
  d.is_archived &&
    decide (target.archived_time - tolerance ≤ d.archived_time) &&
    decide (d.archived_time ≤ target.archived_time + tolerance)

def restore_one (restore_derived : Bool) (target : ArDs) (derived_set : Finset ArDs)
    (tolerance : Int) : Finset ArDs :=
  let tp0 := if restore_derived then derived_set else {target}
  let tp1 := tp0.filter (fun d => d.is_archived = true)
  if restore_derived = true ∧ target.is_archived = true then
    tp1.filter (fun d => within_tolerance target tolerance d = true)
  else tp1

/-! ## Concrete instances used by counterexamples and witnesses -/

/-- Derived relation with a redundant edge: `0 → 1`, `0 → 2`, `2 → 1`
(identity `1` is reachable both directly from the root and through `2`). -/
def gRedundant : Nat → List Nat :=
  fun x => if x = 0 then [1, 2] else if x = 2 then [1] else []

/-- Rank function witnessing that `gRedundant` is acyclic. -/
def rankRedundant : Nat → Nat :=
  fun x => if x = 0 then 2 else if x = 2 then 1 else 0

/-! ## Lineage-aware dataset resolution (`dataset_resolver`, lineage path)

The resolver runs on the already-deduplicated document tree produced by
`dedup_lineage` (that step lives in `datacube.model.utils`, outside the two
embedded files).  A document node carries its identity, its body
(`doc_without_lineage_sources`, an opaque `Nat` payload), and its named lineage
sources.  The catalog bulk-lookup result `db_dss` is the parameter
`db : Nat → Option DBEntry`, and the product matcher built from the full rule
list is the parameter `mp : Nat → Option Nat` (`none` models a raised
`BadMatch`).  `resolve_ds` is embedded with explicit state: the per-call
`cache`, the `next` fresh serial number (a constructed `Dataset` object's
identity, so that model equality of `RDataset` values coincides with Python
reference equality), the list `calls` of identities on which the Signature
Matcher was invoked and the list `misses` of identities on which a dataset was
actually constructed (one cache miss each). -/

mutual
inductive DocNode where
  | node (id : Nat) (doc : Nat) (sources : SrcL)
inductive SrcL where
  | nil
  | cons (name : String) (child : DocNode) (rest : SrcL)
end

def DocNode.id : DocNode → Nat
  | .node i _ _ => i

def DocNode.doc : DocNode → Nat
  | .node _ d _ => d

def DocNode.sources : DocNode → SrcL
  | .node _ _ s => s

mutual
def idsN : DocNode → List Nat
  | .node i _ s => i :: idsS s
def idsS : SrcL → List Nat
  | .nil => []
  | .cons _ c r => idsN c ++ idsS r
end

mutual
def subN : DocNode → List DocNode
  | .node i d s => .node i d s :: subS s
def subS : SrcL → List DocNode
  | .nil => []
  | .cons _ c r => subN c ++ subS r
end

mutual
inductive RDataset where
  | mk (serial : Nat) (id : Nat) (product : Nat) (doc : Nat) (uris : List String)
      (sources : RSrcs)
inductive RSrcs where
  | nil
  | cons (name : String) (child : RDataset) (rest : RSrcs)
end

def RDataset.serial : RDataset → Nat
  | .mk s _ _ _ _ _ => s

def RDataset.id : RDataset → Nat
  | .mk _ i _ _ _ _ => i

def RDataset.product : RDataset → Nat
  | .mk _ _ p _ _ _ => p

def RDataset.doc : RDataset → Nat
  | .mk _ _ _ d _ _ => d

def RDataset.uris : RDataset → List String
  | .mk _ _ _ _ u _ => u

def RDataset.sources : RDataset → RSrcs
  | .mk _ _ _ _ _ s => s

mutual
def nodesD : RDataset → List RDataset
  | .mk s i p d u srcs => .mk s i p d u srcs :: nodesRS srcs
def nodesRS : RSrcs → List RDataset
  | .nil => []
  | .cons _ c r => nodesD c ++ nodesRS r
end

def childListR : RSrcs → List RDataset
  | .nil => []
  | .cons _ c r => c :: childListR r

structure DBEntry where
  type_ : Nat
  metadata_doc : Nat
deriving DecidableEq

structure RState where
  cache : List (Nat × RDataset)
  next : Nat
  calls : List Nat
  misses : List Nat

def lookupC : List (Nat × RDataset) → Nat → Option RDataset
  | [], _ => none
  | (k, d) :: rest, i => if k = i then some d else lookupC rest i

/-- One step of `resolve_ds`: consult the per-call cache first; on a miss give
the root node the caller-supplied uri and lineage nodes no uris, take the
product from the catalog entry when the identity is catalogued and from the
Signature Matcher otherwise (a `BadMatch` aborts with `none`), then insert the
freshly constructed dataset into the cache under the node's identity. -/
def resolve_ds (db : Nat → Option DBEntry) (mp : Nat → Option Nat) (main_uuid : Nat)
    (uri : String) (dsId dsDoc : Nat) (sources : RSrcs) (st : RState) :
    Option (RDataset × RState) :=
  match lookupC st.cache dsId with
  | some cached => some (cached, st)
  | none =>
    match db dsId with
    | some e =>
      some (RDataset.mk st.next dsId e.type_ dsDoc
          (if dsId = main_uuid then [uri] else []) sources,
        ⟨(dsId, RDataset.mk st.next dsId e.type_ dsDoc
            (if dsId = main_uuid then [uri] else []) sources) :: st.cache,
          st.next + 1, st.calls, dsId :: st.misses⟩)
    | none =>
      match mp dsDoc with
      | none => none
      | some p =>
        some (RDataset.mk st.next dsId p dsDoc
            (if dsId = main_uuid then [uri] else []) sources,
          ⟨(dsId, RDataset.mk st.next dsId p dsDoc
              (if dsId = main_uuid then [uri] else []) sources) :: st.cache,
            st.next + 1, dsId :: st.calls, dsId :: st.misses⟩)

mutual
/-- `remap_lineage_doc(main_ds, resolve_ds, cache={})`: bottom-up recursive
construction — resolve the named sources first, then the node itself. -/
def remapN (db : Nat → Option DBEntry) (mp : Nat → Option Nat) (main_uuid : Nat)
    (uri : String) : DocNode → RState → Option (RDataset × RState)
  | .node i d s, st =>
    match remapS db mp main_uuid uri s st with
    | none => none
    | some (rs, st1) => resolve_ds db mp main_uuid uri i d rs st1
def remapS (db : Nat → Option DBEntry) (mp : Nat → Option Nat) (main_uuid : Nat)
    (uri : String) : SrcL → RState → Option (RSrcs × RState)
  | .nil, st => some (.nil, st)
  | .cons n c r, st =>
    match remapN db mp main_uuid uri c st with
    | none => none
    | some (dc, st1) =>
      match remapS db mp main_uuid uri r st1 with
      | none => none
      | some (dr, st2) => some (.cons n dc dr, st2)
end

def allUuid (root : DocNode) : List Nat :=
  (idsN root).dedup

def lineageUuids (root : DocNode) : List Nat :=
  (allUuid root).filter (fun i => i ≠ root.id)

def missingLineageOf (db : Nat → Option DBEntry) (root : DocNode) : List Nat :=
  (lineageUuids root).filter (fun i => (db i).isNone)

mutual
def docAtN : DocNode → Nat → Option Nat
  | .node i d s, j => if i = j then some d else docAtS s j
def docAtS : SrcL → Nat → Option Nat
  | .nil, _ => none
  | .cons _ c r, j =>
    match docAtN c j with
    | some d => some d
    | none => docAtS r j
end

/-- Known lineage identities whose parsed document disagrees with the
catalogued document (`check_consistent` finding differences is modelled by
inequality of the opaque document payloads). -/
def badLineageOf (db : Nat → Option DBEntry) (root : DocNode) : List Nat :=
  (lineageUuids root).filter (fun i =>
    match db i with
    | some e => decide (docAtN root i ≠ some e.metadata_doc)
    | none => false)

inductive ResolveResult where
  | ok (d : RDataset) (st : RState)
  | missingLineage (ids : List Nat)
  | inconsistent (ids : List Nat)
  | badMatch

/-- The lineage-aware `resolve` closure of `dataset_resolver` on an
already-deduplicated root: missing-lineage gate, lineage verification, then
memoized recursive construction. -/
def resolve (fail_on_missing_lineage verify_lineage : Bool) (db : Nat → Option DBEntry)
    (mp : Nat → Option Nat) (root : DocNode) (uri : String) : ResolveResult :=
  if fail_on_missing_lineage = true ∧ missingLineageOf db root ≠ [] then
    .missingLineage (missingLineageOf db root)
  else if (if verify_lineage = true then badLineageOf db root else []) ≠ [] then
    .inconsistent (badLineageOf db root)
  else
    match remapN db mp root.id uri root ⟨[], 0, [], []⟩ with
    | none => .badMatch
    | some (d, st) => .ok d st

/-- Per-node product correctness relative to the catalog and the matcher. -/
def prodOK (db : Nat → Option DBEntry) (mp : Nat → Option Nat) (calls : List Nat)
    (n : RDataset) : Prop :=
  (∀ e, db n.id = some e → n.product = e.type_) ∧
  (db n.id = none → mp n.doc = some n.product ∧ n.id ∈ calls)

/-- Cache-lookup monotonicity between two resolver states. -/
def cacheLe (c1 c2 : List (Nat × RDataset)) : Prop :=
  ∀ k v, lookupC c1 k = some v → lookupC c2 k = some v

/-- Resolver-state invariant: the cache is keyed functionally, every dataset
reachable from a cached dataset is itself cached under its identity (sharing),
serial numbers identify construction events uniquely, uris and products are as
`resolve_ds` assigns them, and the matcher-call and construction traces are
duplicate-free and within the cached keys. -/
structure RInv (db : Nat → Option DBEntry) (mp : Nat → Option Nat) (main_uuid : Nat)
    (uri : String) (st : RState) : Prop where
  keys_nodup : (st.cache.map Prod.fst).Nodup
  entry_id : ∀ p ∈ st.cache, RDataset.id p.2 = p.1
  closed : ∀ p ∈ st.cache, ∀ n ∈ nodesD p.2, lookupC st.cache (RDataset.id n) = some n
  serial_lt : ∀ p ∈ st.cache, ∀ n ∈ nodesD p.2, RDataset.serial n < st.next
  serial_inj : ∀ p1 ∈ st.cache, ∀ p2 ∈ st.cache, ∀ n1 ∈ nodesD p1.2, ∀ n2 ∈ nodesD p2.2,
    RDataset.serial n1 = RDataset.serial n2 → n1 = n2
  uris_ok : ∀ p ∈ st.cache, ∀ n ∈ nodesD p.2,
    RDataset.uris n = if RDataset.id n = main_uuid then [uri] else []
  prod_ok : ∀ p ∈ st.cache, ∀ n ∈ nodesD p.2, prodOK db mp st.calls n
  calls_nodup : st.calls.Nodup
  misses_nodup : st.misses.Nodup
  calls_keys : ∀ i ∈ st.calls, (lookupC st.cache i).isSome = true
  misses_keys : ∀ i ∈ st.misses, (lookupC st.cache i).isSome = true
  calls_db : ∀ i ∈ st.calls, db i = none

/-! Concrete resolver instances for the witnesses: a root (identity 1) with two
lineage references to the same ancestor (identity 2). -/

def root0 : DocNode :=
  .node 1 10 (.cons "a" (.node 2 20 .nil) (.cons "b" (.node 2 20 .nil) .nil))

def dbNone : Nat → Option DBEntry :=
  fun _ => none

def db2 : Nat → Option DBEntry :=
  fun i => if i = 2 then some ⟨77, 20⟩ else none

def mp0 : Nat → Option Nat :=
  fun d => some (d + 100)

def dC : RDataset :=
  .mk 0 2 77 20 [] .nil

def dRoot : RDataset :=
  .mk 1 1 110 10 ["file:u"] (.cons "a" dC (.cons "b" dC .nil))

def stRoot : RState :=
  ⟨[(1, dRoot), (2, dC)], 2, [1], [1, 2]⟩

-- ===== THEOREMS =====

/-- C10: every pair yielded by `date_sequence` has `end_date = start_date + duration`
and `end_date ≤ end`; candidate intervals whose end would exceed `end` are omitted
entirely (membership characterisation, so no truncated pair is ever yielded). -/
theorem date_sequence_spec (starts : List Int) (dur endd s e : Int) :
    (s, e) ∈ date_sequence starts dur endd ↔ (s ∈ starts ∧ e = s + dur ∧ e ≤ endd) := by
  simp only [date_sequence, List.mem_filterMap]
  constructor
  · rintro ⟨a, ha, hf⟩
    by_cases h : a + dur ≤ endd
    · rw [if_pos h, Option.some_inj, Prod.mk.injEq] at hf
      obtain ⟨rfl, rfl⟩ := hf
      exact ⟨ha, rfl, h⟩
    · rw [if_neg h] at hf
      cases hf
  · rintro ⟨hs, rfl, hle⟩
    exact ⟨s, hs, by rw [if_pos hle]⟩

/-- C7: `check_dataset_consistent` succeeds with `(true, none)` when the product
declares no measurements; with a non-empty required set it succeeds iff the
dataset has measurements containing every product measurement name (in
particular a dataset with no measurements fails with a message), and a failing
dataset is never yielded by `load_datasets`. -/
theorem check_dataset_consistent_spec (ds : DsForCheck)
    (resolved : List (Option DsForCheck)) :
    (ds.productMeasurements = [] → check_dataset_consistent ds = (true, none)) ∧
    (ds.productMeasurements ≠ [] →
      ((check_dataset_consistent ds).1 = true ↔
        ∃ ms, ds.measurements = some ms ∧ ∀ m ∈ ds.productMeasurements, m ∈ ms)) ∧
    (ds.productMeasurements ≠ [] → ds.measurements = none →
      check_dataset_consistent ds = (false, some "No measurements defined for a dataset")) ∧
    ((check_dataset_consistent ds).1 = false → ds ∉ load_datasets resolved) := by
  refine ⟨fun h => by simp [check_dataset_consistent, h], fun h => ?_, fun h hm => ?_, fun h hmem => ?_⟩
  · rcases hms : ds.measurements with _ | ms
    · refine iff_of_false ?_ ?_
      · simp [check_dataset_consistent, h, hms]
      · rintro ⟨ms', hms', _⟩
        cases hms'
    · by_cases hall : ∀ m ∈ ds.productMeasurements, m ∈ ms
      · refine iff_of_true ?_ ⟨ms, rfl, hall⟩
        simp only [check_dataset_consistent, if_neg h, hms]
        rw [if_pos hall]
      · refine iff_of_false ?_ ?_
        · simp only [check_dataset_consistent, if_neg h, hms]
          rw [if_neg hall]
          simp
        · rintro ⟨ms', hms', hsub⟩
          obtain rfl := Option.some.inj hms'
          exact hall hsub
  · simp [check_dataset_consistent, h, hm]
  · rw [load_datasets, List.mem_filterMap] at hmem
    obtain ⟨r, _, hr⟩ := hmem
    cases r with
    | none => cases hr
    | some d =>
      simp only at hr
      by_cases hc : (check_dataset_consistent d).1
      · rw [if_pos hc, Option.some_inj] at hr
        rw [hr] at hc
        rw [h] at hc
        cases hc
      · rw [if_neg hc] at hr
        cases hr

/-- Witness for C7: a product requiring `"red"` with a dataset lacking
measurements fails with the documented message and is not yielded. -/
theorem check_dataset_consistent_witness :
    ((⟨3, ["red"], none⟩ : DsForCheck).productMeasurements ≠ [] ∧
      (⟨3, ["red"], none⟩ : DsForCheck).measurements = none) ∧
    check_dataset_consistent ⟨3, ["red"], none⟩ =
      (false, some "No measurements defined for a dataset") ∧
    (⟨3, ["red"], none⟩ : DsForCheck) ∉ load_datasets [some ⟨3, ["red"], none⟩] := by
  refine ⟨⟨by decide, rfl⟩, ?_, ?_⟩
  · exact (check_dataset_consistent_spec ⟨3, ["red"], none⟩ []).2.2.1 (by decide) rfl
  · exact (check_dataset_consistent_spec ⟨3, ["red"], none⟩ [some ⟨3, ["red"], none⟩]).2.2.2
      (by decide)

/-- C8: the old-location action is taken exactly when the existing dataset has
one single recorded location differing from the new document's location; with
several existing locations the step is skipped with a warning, and with no
existing location or an unchanged location nothing is done. -/
theorem loc_action_spec (new_ds existing_ds : UDataset) (u : String)
    (hn : new_ds.uris = [u]) :
    (∀ i o, loc_action new_ds existing_ds = some (.acted i o) ↔
      (existing_ds.uris = [o] ∧ o ≠ u ∧ i = existing_ds.id)) ∧
    (1 < existing_ds.uris.length → loc_action new_ds existing_ds = some .warned) ∧
    (existing_ds.uris = [] → loc_action new_ds existing_ds = some .noAction) ∧
    (existing_ds.uris = [u] → loc_action new_ds existing_ds = some .noAction) := by
  obtain ⟨nid, nuris⟩ := new_ds
  obtain ⟨eid, euris⟩ := existing_ds
  simp only at hn
  subst hn
  match euris with
  | [] =>
    refine ⟨fun i o => iff_of_false (by simp [loc_action]) (by simp), fun h1 => by simp at h1,
      fun _ => by simp [loc_action], fun hcontra => by simp at hcontra⟩
  | [o'] =>
    by_cases he : u = o'
    · subst he
      refine ⟨fun i o => iff_of_false (by simp [loc_action]) ?_, fun h1 => by simp at h1,
        fun hcontra => by simp at hcontra, fun _ => by simp [loc_action]⟩
      rintro ⟨ho, hne, rfl⟩
      obtain rfl := (List.cons.injEq .. ▸ ho).1.symm
      exact hne rfl
    · refine ⟨fun i o => ?_, fun h1 => by simp at h1, fun hcontra => by simp at hcontra,
        fun hcontra => ?_⟩
      · rw [loc_action]
        simp only [List.length_cons, List.length_nil]
        rw [if_neg (by omega), if_neg (by omega), if_neg he]
        constructor
        · intro hact
          obtain ⟨rfl, rfl⟩ : eid = i ∧ o' = o := by
            have := Option.some.inj hact
            cases this
            exact ⟨rfl, rfl⟩
          exact ⟨rfl, fun hc => he hc.symm, rfl⟩
        · rintro ⟨ho, hne, rfl⟩
          obtain rfl := (List.cons.injEq .. ▸ ho).1.symm
          rfl
      · obtain rfl := (List.cons.injEq .. ▸ hcontra).1
        exact absurd rfl he
  | a :: b :: t =>
    refine ⟨fun i o => iff_of_false ?_ ?_, fun _ => ?_, fun hcontra => by simp at hcontra,
      fun hcontra => by simp at hcontra⟩
    · rw [loc_action]
      simp only [List.length_cons]
      rw [if_neg (by omega), if_pos (by omega)]
      simp
    · rintro ⟨ho, _, _⟩
      simp at ho
    · rw [loc_action]
      simp only [List.length_cons]
      rw [if_neg (by omega), if_pos (by omega)]

/-- Witness for C8: one differing existing location triggers the action; two
existing locations only produce the warning. -/
theorem loc_action_witness :
    (⟨5, ["file:new"]⟩ : UDataset).uris = ["file:new"] ∧
    loc_action ⟨5, ["file:new"]⟩ ⟨7, ["file:old"]⟩ = some (.acted 7 "file:old") ∧
    loc_action ⟨5, ["file:new"]⟩ ⟨7, ["a", "b"]⟩ = some .warned := by
  refine ⟨rfl, ?_, ?_⟩
  · exact ((loc_action_spec ⟨5, ["file:new"]⟩ ⟨7, ["file:old"]⟩ "file:new" rfl).1 7
      "file:old").mpr ⟨rfl, by decide, rfl⟩
  · exact (loc_action_spec ⟨5, ["file:new"]⟩ ⟨7, ["a", "b"]⟩ "file:new" rfl).2.1 (by decide)

theorem product_matcher_cons_cons (c : Nat → Nat → Bool) (docIdOf : Nat → String)
    (a b : PRule) (t : List PRule) (doc : Nat) :
    product_matcher c docIdOf (a :: b :: t) doc =
      match (List.filter (fun r => c doc r.signature) (a :: b :: t)).map
          (fun r => r.product) with
      | [] => .noMatch (docIdOf doc)
      | [p] => .ok p
      | ps => .ambiguous (docIdOf doc) (ps.map (fun p => p.name)) := rfl

/-- C6: with two or more rules, `product_matcher` returns the unique matching
product when exactly one rule's signature is contained in the document, fails
naming the document's identity when no rule matches, and fails listing every
matched product's name when several match. -/
theorem product_matcher_spec (c : Nat → Nat → Bool) (docIdOf : Nat → String)
    (rules : List PRule) (doc : Nat) (hlen : 2 ≤ rules.length) :
    (∀ p, (rules.filter (fun r => c doc r.signature)).map (fun r => r.product) = [p] →
      product_matcher c docIdOf rules doc = .ok p) ∧
    ((rules.filter (fun r => c doc r.signature)).map (fun r => r.product) = [] →
      product_matcher c docIdOf rules doc = .noMatch (docIdOf doc)) ∧
    (2 ≤ ((rules.filter (fun r => c doc r.signature)).map (fun r => r.product)).length →
      product_matcher c docIdOf rules doc =
        .ambiguous (docIdOf doc)
          (((rules.filter (fun r => c doc r.signature)).map (fun r => r.product)).map
            (fun p => p.name))) := by
  match rules, hlen with
  | a :: b :: t, _ =>
    refine ⟨fun p hp => ?_, fun hp => ?_, fun hp => ?_⟩
    · rw [product_matcher_cons_cons, hp]
    · rw [product_matcher_cons_cons, hp]
    · rcases hm : (List.filter (fun r => c doc r.signature) (a :: b :: t)).map
          (fun r => r.product) with _ | ⟨p1, _ | ⟨p2, ps⟩⟩
      · rw [hm] at hp
        simp at hp
      · rw [hm] at hp
        simp at hp
      · rw [product_matcher_cons_cons, hm]

/-- Witness for C6: two rules whose signatures are both contained in the
document produce an ambiguous-match error listing both product names. -/
theorem product_matcher_witness :
    2 ≤ ([⟨⟨"P1"⟩, 1⟩, ⟨⟨"P2"⟩, 2⟩] : List PRule).length ∧
    product_matcher (fun _ _ => true) (fun _ => "D") [⟨⟨"P1"⟩, 1⟩, ⟨⟨"P2"⟩, 2⟩] 9 =
      .ambiguous "D" ["P1", "P2"] := by
  refine ⟨by decide, ?_⟩
  exact (product_matcher_spec (fun _ _ => true) (fun _ => "D")
    [⟨⟨"P1"⟩, 1⟩, ⟨⟨"P2"⟩, 2⟩] 9 (by decide)).2.2 (by decide)

/-- C9: during cascading restore with the target archived, a dataset from the
derived set is restored iff it is itself archived and its archival timestamp
lies in the closed window `[T - tolerance, T + tolerance]` around the target's
archival time `T`. -/
theorem restore_one_spec (target : ArDs) (derived_set : Finset ArDs) (tolerance : Int)
    (htarget : target.is_archived = true) (d : ArDs) :
    d ∈ restore_one true target derived_set tolerance ↔
      (d ∈ derived_set ∧ d.is_archived = true ∧
        target.archived_time - tolerance ≤ d.archived_time ∧
        d.archived_time ≤ target.archived_time + tolerance) := by
  simp [restore_one, within_tolerance, htarget]
  tauto

/-- Witness for C9 (the spec's tolerance scenario): target archived at
`T = 1000` with tolerance `600`; a derived dataset archived at `T + 300` is
restored and one archived at `T + 900` is not. -/
theorem restore_one_witness :
    (⟨0, true, 1000⟩ : ArDs).is_archived = true ∧
    (⟨1, true, 1300⟩ : ArDs) ∈
      restore_one true ⟨0, true, 1000⟩ {⟨1, true, 1300⟩, ⟨2, true, 1900⟩} 600 ∧
    (⟨2, true, 1900⟩ : ArDs) ∉
      restore_one true ⟨0, true, 1000⟩ {⟨1, true, 1300⟩, ⟨2, true, 1900⟩} 600 := by
  refine ⟨rfl, ?_, ?_⟩
  · rw [restore_one_spec _ _ _ rfl]
    exact ⟨Finset.mem_insert_self _ _, rfl, by decide, by decide⟩
  · rw [restore_one_spec _ _ _ rfl]
    rintro ⟨-, -, -, hc⟩
    exact absurd hc (by decide)

/-- Counterexample to C1 as stated: on the acyclic relation `gRedundant`
(edges `0 → 1`, `0 → 2`, `2 → 1`, a redundant path to `1`), the derived-set
walk calls the derived-lookup on identity `1` twice (trace `[0, 1, 2, 1]`):
the worklist is a plain pending set without a visited set, so an identity
already processed can be re-enqueued by a redundant edge. -/
theorem get_derived_set_counterexample :
    (get_derived_set gRedundant 0 10).map (fun r => r.2) = some [0, 1, 2, 1] ∧
    ([0, 1, 2, 1] : List Nat).count 1 = 2 :=
  ⟨by decide, by decide⟩

theorem wAux_stable (g : Nat → List Nat) (rank : Nat → Nat)
    (hr : ∀ x y, y ∈ g x → rank y < rank x) :
    ∀ K x n, rank x ≤ K → rank x ≤ n → wAux g n x = wAux g (rank x) x := by
  intro K
  induction K with
  | zero =>
    intro x n hK _
    have hx0 : rank x = 0 := Nat.le_zero.mp hK
    have hempty : g x = [] := by
      cases hgx : g x with
      | nil => rfl
      | cons a t =>
        have := hr x a (by rw [hgx]; exact List.mem_cons_self a t)
        omega
    rw [hx0]
    cases n with
    | zero => rfl
    | succ m => simp [wAux, hempty]
  | succ K ih =>
    intro x n hK hn
    by_cases hle : rank x ≤ K
    · exact ih x n hle hn
    · have hxK : rank x = K + 1 := by omega
      cases n with
      | zero => omega
      | succ m =>
        rw [hxK]
        show 1 + ((g x).map (wAux g m)).sum = 1 + ((g x).map (wAux g K)).sum
        congr 1
        apply congrArg
        apply List.map_congr_left
        intro y hy
        have hylt : rank y < K + 1 := hxK ▸ hr x y hy
        have h1 := ih y m (by omega) (by omega)
        have h2 := ih y K (by omega) (by omega)
        rw [h1, h2]

theorem wfun_eq (g : Nat → List Nat) (rank : Nat → Nat)
    (hr : ∀ x y, y ∈ g x → rank y < rank x) (x : Nat) :
    wfun g rank x = 1 + ((g x).map (wfun g rank)).sum := by
  unfold wfun
  cases hx : rank x with
  | zero =>
    have hempty : g x = [] := by
      cases hgx : g x with
      | nil => rfl
      | cons a t =>
        have := hr x a (by rw [hgx]; exact List.mem_cons_self a t)
        omega
    simp [wAux, hempty]
  | succ r =>
    show 1 + ((g x).map (wAux g r)).sum = 1 + ((g x).map (fun y => wAux g (rank y) y)).sum
    congr 1
    apply congrArg
    apply List.map_congr_left
    intro y hy
    have hylt : rank y < r + 1 := hx ▸ hr x y hy
    exact wAux_stable g rank hr r y r (by omega) (by omega)

theorem wfun_pos (g : Nat → List Nat) (rank : Nat → Nat) (x : Nat) :
    1 ≤ wfun g rank x := by
  unfold wfun
  cases rank x with
  | zero => exact le_refl 1
  | succ r => exact Nat.le_add_right 1 _

theorem toFinset_sum_le (l : List Nat) (f : Nat → Nat) :
    l.toFinset.sum f ≤ (l.map f).sum := by
  induction l with
  | nil => simp
  | cons a t ih =>
    rw [List.toFinset_cons, List.map_cons, List.sum_cons]
    by_cases ha : a ∈ t.toFinset
    · rw [Finset.insert_eq_self.mpr ha]
      exact le_trans ih (Nat.le_add_left _ _)
    · rw [Finset.sum_insert ha]
      exact Nat.add_le_add_left ih _

theorem sum_union_le_nat (s t : Finset Nat) (f : Nat → Nat) :
    (s ∪ t).sum f ≤ s.sum f + t.sum f := by
  rw [← Finset.union_sdiff_self_eq_union, Finset.sum_union Finset.disjoint_sdiff]
  exact Nat.add_le_add_left (Finset.sum_le_sum_of_subset Finset.sdiff_subset) _

theorem derivedLoop_terminates (g : Nat → List Nat) (rank : Nat → Nat)
    (hr : ∀ x y, y ∈ g x → rank y < rank x) :
    ∀ fuel tp acc tr, tp.sum (wfun g rank) ≤ fuel →
      ∃ res, derivedLoop g fuel tp acc tr = some res := by
  intro fuel
  induction fuel with
  | zero =>
    intro tp acc tr hsum
    have htp : tp = ∅ := by
      by_contra hne
      obtain ⟨x, hx⟩ := Finset.nonempty_iff_ne_empty.mpr hne
      have h1 : wfun g rank x ≤ tp.sum (wfun g rank) :=
        Finset.single_le_sum (fun i _ => Nat.zero_le _) hx
      have := wfun_pos g rank x
      omega
    rw [derivedLoop, if_pos htp]
    exact ⟨(acc, tr), rfl⟩
  | succ fuel ih =>
    intro tp acc tr hsum
    by_cases h : tp.Nonempty
    · rw [derivedLoop, dif_pos h]
      have hxmem : tp.min' h ∈ tp := tp.min'_mem h
      apply ih
      have hsplit : (tp.erase (tp.min' h)).sum (wfun g rank) + wfun g rank (tp.min' h) =
          tp.sum (wfun g rank) := Finset.sum_erase_add tp _ hxmem
      have hunion : ((tp.erase (tp.min' h)) ∪ (g (tp.min' h)).toFinset).sum (wfun g rank) ≤
          (tp.erase (tp.min' h)).sum (wfun g rank) +
            (g (tp.min' h)).toFinset.sum (wfun g rank) := sum_union_le_nat _ _ _
      have hgx : (g (tp.min' h)).toFinset.sum (wfun g rank) ≤
          ((g (tp.min' h)).map (wfun g rank)).sum := toFinset_sum_le _ _
      have hw := wfun_eq g rank hr (tp.min' h)
      omega
    · rw [derivedLoop, dif_neg h]
      exact ⟨(acc, tr), rfl⟩

theorem reaches_prepend (g : Nat → List Nat) {x z y : Nat} (hz : z ∈ g x)
    (h : Reaches g z y) : Reaches g x y := by
  induction h with
  | refl => exact Reaches.step (Reaches.refl x) hz
  | step _ hc ih => exact Reaches.step ih hc

theorem reaches_head_cases (g : Nat → List Nat) {x y : Nat} (h : Reaches g x y) :
    y = x ∨ ∃ c ∈ g x, Reaches g c y := by
  induction h with
  | refl => exact Or.inl rfl
  | step _ hc ih =>
    rcases ih with rfl | ⟨c', hc', hrc⟩
    · exact Or.inr ⟨_, hc, Reaches.refl _⟩
    · exact Or.inr ⟨c', hc', Reaches.step hrc hc⟩

theorem derivedLoop_sets (g : Nat → List Nat) :
    ∀ (fuel : Nat) (tp acc : Finset Nat) (tr : List Nat) (res : Finset Nat) (trr : List Nat),
      (↑tp : Set Nat) ⊆ ↑acc →
      derivedLoop g fuel tp acc tr = some (res, trr) →
      (↑res : Set Nat) = ↑acc ∪ {y | ∃ x ∈ tp, Reaches g x y} := by
  intro fuel
  induction fuel with
  | zero =>
    intro tp acc tr res trr hsub hloop
    rw [derivedLoop] at hloop
    by_cases htp : tp = ∅
    · rw [if_pos htp] at hloop
      obtain ⟨rfl, rfl⟩ := Prod.mk.injEq .. ▸ Option.some.inj hloop
      subst htp
      ext y
      simp
    · rw [if_neg htp] at hloop
      cases hloop
  | succ fuel ih =>
    intro tp acc tr res trr hsub hloop
    rw [derivedLoop] at hloop
    by_cases h : tp.Nonempty
    · rw [dif_pos h] at hloop
      have hxtp : tp.min' h ∈ tp := tp.min'_mem h
      have hsub' : (↑((tp.erase (tp.min' h)) ∪ (g (tp.min' h)).toFinset) : Set Nat) ⊆
          ↑(acc ∪ (g (tp.min' h)).toFinset) := by
        intro z hz
        simp only [Finset.coe_union, Set.mem_union, Finset.mem_coe] at hz ⊢
        rcases hz with hz | hz
        · exact Or.inl (hsub (Finset.mem_coe.mpr (Finset.mem_of_mem_erase hz)))
        · exact Or.inr hz
      have hres := ih _ _ _ _ _ hsub' hloop
      rw [hres]
      ext y
      simp only [Finset.coe_union, Set.mem_union, Set.mem_setOf_eq, Finset.mem_coe,
        Finset.mem_union, Finset.mem_erase, List.mem_toFinset]
      constructor
      · rintro ((hy | hy) | ⟨z, (⟨hzne, hztp⟩ | hzg), hreach⟩)
        · exact Or.inl hy
        · exact Or.inr ⟨tp.min' h, hxtp, Reaches.step (Reaches.refl _) hy⟩
        · exact Or.inr ⟨z, hztp, hreach⟩
        · exact Or.inr ⟨tp.min' h, hxtp, reaches_prepend g hzg hreach⟩
      · rintro (hy | ⟨z, hztp, hreach⟩)
        · exact Or.inl (Or.inl hy)
        · by_cases hzx : z = tp.min' h
          · subst hzx
            rcases reaches_head_cases g hreach with rfl | ⟨c, hcg, hcr⟩
            · exact Or.inl (Or.inl (hsub (Finset.mem_coe.mpr hztp)))
            · exact Or.inr ⟨c, Or.inr hcg, hcr⟩
          · exact Or.inr ⟨z, Or.inl ⟨hzx, hztp⟩, hreach⟩
    · rw [dif_neg h] at hloop
      obtain ⟨rfl, rfl⟩ := Prod.mk.injEq .. ▸ Option.some.inj hloop
      have htp : tp = ∅ := Finset.not_nonempty_iff_eq_empty.mp h
      subst htp
      ext y
      simp

/-- C1 (amended): on every derived-lookup relation that is acyclic (witnessed
by a rank function strictly decreasing along edges), the derived-set walk
terminates with enough fuel and returns exactly the root identity together
with every identity transitively derived from it.  (The original
at-most-one-lookup-per-identity part of the claim is refuted by
`get_derived_set_counterexample`: the walk keeps no visited set, so redundant
edges can re-enqueue an already processed identity.) -/
theorem get_derived_set_amended (g : Nat → List Nat) (rank : Nat → Nat) (id0 : Nat)
    (hr : ∀ x y, y ∈ g x → rank y < rank x) :
    ∃ fuel res tr, get_derived_set g id0 fuel = some (res, tr) ∧
      (↑res : Set Nat) = {y | Reaches g id0 y} := by
  obtain ⟨⟨res, tr⟩, hres⟩ := derivedLoop_terminates g rank hr
    (({id0} : Finset Nat).sum (wfun g rank)) {id0} {id0} [] (le_refl _)
  refine ⟨_, res, tr, hres, ?_⟩
  have hsets := derivedLoop_sets g _ _ _ _ _ _ (fun _ hz => hz) hres
  rw [hsets]
  ext y
  simp only [Finset.coe_singleton, Set.mem_union, Set.mem_singleton_iff, Set.mem_setOf_eq,
    Finset.mem_singleton]
  constructor
  · rintro (rfl | ⟨x, rfl, hreach⟩)
    · exact Reaches.refl _
    · exact hreach
  · intro hreach
    exact Or.inr ⟨id0, rfl, hreach⟩

/-- Witness for the amended C1 on the concrete redundant-edge relation. -/
theorem get_derived_set_amended_witness :
    (∀ x y, y ∈ gRedundant x → rankRedundant y < rankRedundant x) ∧
    (∃ fuel res tr, get_derived_set gRedundant 0 fuel = some (res, tr) ∧
      (↑res : Set Nat) = {y | Reaches gRedundant 0 y}) := by
  have hr : ∀ x y, y ∈ gRedundant x → rankRedundant y < rankRedundant x := by
    intro x y hy
    by_cases hx0 : x = 0
    · subst hx0
      simp [gRedundant] at hy
      rcases hy with rfl | rfl <;> decide
    · by_cases hx2 : x = 2
      · subst hx2
        simp [gRedundant] at hy
        subst hy
        decide
      · simp [gRedundant, hx0, hx2] at hy
  exact ⟨hr, get_derived_set_amended gRedundant rankRedundant 0 hr⟩

theorem lookupC_cons (a : Nat) (v : RDataset) (c : List (Nat × RDataset)) (k : Nat) :
    lookupC ((a, v) :: c) k = if a = k then some v else lookupC c k := rfl

theorem lookupC_mem {c : List (Nat × RDataset)} {k : Nat} {v : RDataset}
    (h : lookupC c k = some v) : (k, v) ∈ c := by
  induction c with
  | nil => cases h
  | cons p rest ih =>
    obtain ⟨k', v'⟩ := p
    rw [lookupC_cons] at h
    by_cases hk : k' = k
    · rw [if_pos hk] at h
      obtain rfl := Option.some.inj h
      subst hk
      exact List.mem_cons_self _ _
    · rw [if_neg hk] at h
      exact List.mem_cons_of_mem _ (ih h)

theorem lookupC_isSome_of_mem {c : List (Nat × RDataset)} {k : Nat} {v : RDataset}
    (h : (k, v) ∈ c) : (lookupC c k).isSome = true := by
  induction c with
  | nil => cases h
  | cons p rest ih =>
    obtain ⟨k', v'⟩ := p
    rcases List.mem_cons.mp h with heq | hmem
    · obtain ⟨rfl, rfl⟩ := Prod.mk.injEq .. ▸ heq
      rw [lookupC_cons, if_pos rfl]
      rfl
    · rw [lookupC_cons]
      by_cases hk : k' = k
      · rw [if_pos hk]
        rfl
      · rw [if_neg hk]
        exact ih hmem

theorem lookupC_none_not_key {c : List (Nat × RDataset)} {k : Nat}
    (h : lookupC c k = none) : k ∉ c.map Prod.fst := by
  induction c with
  | nil => simp
  | cons p rest ih =>
    obtain ⟨k', v'⟩ := p
    rw [lookupC_cons] at h
    by_cases hk : k' = k
    · rw [if_pos hk] at h
      cases h
    · rw [if_neg hk] at h
      simp only [List.map_cons, List.mem_cons]
      rintro (rfl | hmem)
      · exact hk rfl
      · exact ih h hmem

theorem nodesD_mk (s i p d : Nat) (u : List String) (srcs : RSrcs) :
    nodesD (.mk s i p d u srcs) = .mk s i p d u srcs :: nodesRS srcs := rfl

theorem self_mem_nodesD (d : RDataset) : d ∈ nodesD d := by
  cases d
  rw [nodesD_mk]
  exact List.mem_cons_self _ _

theorem mem_nodesRS_iff : ∀ (rs : RSrcs) (n : RDataset),
    n ∈ nodesRS rs ↔ ∃ c ∈ childListR rs, n ∈ nodesD c
  | .nil, n => by
    rw [nodesRS, childListR]
    simp
  | .cons nm c r, n => by
    rw [nodesRS, childListR]
    simp only [List.mem_append, List.mem_cons, mem_nodesRS_iff r n]
    constructor
    · rintro (h | ⟨c', hc', hn⟩)
      · exact ⟨c, Or.inl rfl, h⟩
      · exact ⟨c', Or.inr hc', hn⟩
    · rintro ⟨c', (rfl | hc'), hn⟩
      · exact Or.inl hn
      · exact Or.inr ⟨c', hc', hn⟩

theorem prodOK_mono {db : Nat → Option DBEntry} {mp : Nat → Option Nat}
    {calls calls' : List Nat} (hsub : calls ⊆ calls') {n : RDataset}
    (h : prodOK db mp calls n) : prodOK db mp calls' n :=
  ⟨h.1, fun hn => ⟨(h.2 hn).1, hsub (h.2 hn).2⟩⟩

theorem rinv_empty (db : Nat → Option DBEntry) (mp : Nat → Option Nat)
    (main_uuid : Nat) (uri : String) : RInv db mp main_uuid uri ⟨[], 0, [], []⟩ := by
  refine ⟨?_, ?_, ?_, ?_, ?_, ?_, ?_, ?_, ?_, ?_, ?_, ?_⟩ <;> simp

theorem rinv_insert (db : Nat → Option DBEntry) (mp : Nat → Option Nat) (main_uuid : Nat)
    (uri : String) (st : RState) (dsId dsDoc pprod : Nat) (rs : RSrcs) (calls' : List Nat)
    (hInv : RInv db mp main_uuid uri st)
    (hrs : ∀ c ∈ childListR rs, lookupC st.cache (RDataset.id c) = some c)
    (hmiss : lookupC st.cache dsId = none)
    (hc1 : db dsId = none → calls' = dsId :: st.calls ∧ mp dsDoc = some pprod)
    (hc2 : ∀ e, db dsId = some e → calls' = st.calls ∧ pprod = e.type_) :
    RInv db mp main_uuid uri
      ⟨(dsId, RDataset.mk st.next dsId pprod dsDoc
          (if dsId = main_uuid then [uri] else []) rs) :: st.cache,
        st.next + 1, calls', dsId :: st.misses⟩ := by
  set dnew := RDataset.mk st.next dsId pprod dsDoc
    (if dsId = main_uuid then [uri] else []) rs with hdnew
  have hOld : ∀ n ∈ nodesRS rs, lookupC st.cache (RDataset.id n) = some n ∧
      RDataset.serial n < st.next ∧
      RDataset.uris n = (if RDataset.id n = main_uuid then [uri] else []) ∧
      prodOK db mp st.calls n := by
    intro n hn
    obtain ⟨c, hc, hnc⟩ := (mem_nodesRS_iff rs n).mp hn
    have hcl := lookupC_mem (hrs c hc)
    exact ⟨hInv.closed _ hcl n hnc, hInv.serial_lt _ hcl n hnc,
      hInv.uris_ok _ hcl n hnc, hInv.prod_ok _ hcl n hnc⟩
  have hclass : ∀ p ∈ ((dsId, dnew) :: st.cache), ∀ n ∈ nodesD p.2,
      n = dnew ∨ (lookupC st.cache (RDataset.id n) = some n ∧
        RDataset.serial n < st.next ∧
        RDataset.uris n = (if RDataset.id n = main_uuid then [uri] else []) ∧
        prodOK db mp st.calls n) := by
    intro p hp n hn
    rcases List.mem_cons.mp hp with rfl | hpold
    · have hn2 : n ∈ dnew :: nodesRS rs := hn
      rcases List.mem_cons.mp hn2 with rfl | hns
      · exact Or.inl rfl
      · exact Or.inr (hOld n hns)
    · exact Or.inr ⟨hInv.closed _ hpold n hn, hInv.serial_lt _ hpold n hn,
        hInv.uris_ok _ hpold n hn, hInv.prod_ok _ hpold n hn⟩
  have hnotkey : dsId ∉ st.cache.map Prod.fst := lookupC_none_not_key hmiss
  have hcsub : st.calls ⊆ calls' := by
    cases hdb : db dsId with
    | none =>
      rw [(hc1 hdb).1]
      exact fun x hx => List.mem_cons_of_mem _ hx
    | some e =>
      rw [(hc2 e hdb).1]
      exact fun x hx => hx
  have hdnotcalls : dsId ∉ st.calls := by
    intro hmem
    have h := hInv.calls_keys dsId hmem
    rw [hmiss] at h
    simp at h
  have hdnotmisses : dsId ∉ st.misses := by
    intro hmem
    have h := hInv.misses_keys dsId hmem
    rw [hmiss] at h
    simp at h
  have hidne : ∀ n : RDataset, lookupC st.cache (RDataset.id n) = some n →
      RDataset.id n ≠ dsId := by
    intro n hl heq
    rw [heq, hmiss] at hl
    cases hl
  have hmemOf : ∀ n : RDataset, lookupC st.cache (RDataset.id n) = some n →
      (RDataset.id n, n) ∈ st.cache := fun n hl => lookupC_mem hl
  refine ⟨?_, ?_, ?_, ?_, ?_, ?_, ?_, ?_, ?_, ?_, ?_, ?_⟩
  · show (((dsId, dnew) :: st.cache).map Prod.fst).Nodup
    rw [List.map_cons]
    exact List.nodup_cons.mpr ⟨hnotkey, hInv.keys_nodup⟩
  · show ∀ p ∈ ((dsId, dnew) :: st.cache), RDataset.id p.2 = p.1
    intro p hp
    rcases List.mem_cons.mp hp with rfl | hpold
    · rfl
    · exact hInv.entry_id _ hpold
  · show ∀ p ∈ ((dsId, dnew) :: st.cache), ∀ n ∈ nodesD p.2,
      lookupC ((dsId, dnew) :: st.cache) (RDataset.id n) = some n
    intro p hp n hn
    rcases hclass p hp n hn with rfl | ⟨hl, _, _, _⟩
    · show lookupC ((dsId, dnew) :: st.cache) dsId = some dnew
      rw [lookupC_cons, if_pos rfl]
    · rw [lookupC_cons, if_neg (fun heq => hidne n hl heq.symm)]
      exact hl
  · show ∀ p ∈ ((dsId, dnew) :: st.cache), ∀ n ∈ nodesD p.2,
      RDataset.serial n < st.next + 1
    intro p hp n hn
    rcases hclass p hp n hn with rfl | ⟨_, hs, _, _⟩
    · exact Nat.lt_succ_self _
    · exact Nat.lt_succ_of_lt hs
  · show ∀ p1 ∈ ((dsId, dnew) :: st.cache), ∀ p2 ∈ ((dsId, dnew) :: st.cache),
      ∀ n1 ∈ nodesD p1.2, ∀ n2 ∈ nodesD p2.2,
      RDataset.serial n1 = RDataset.serial n2 → n1 = n2
    intro p1 hp1 p2 hp2 n1 hn1 n2 hn2 hser12
    rcases hclass p1 hp1 n1 hn1 with rfl | h1
    · rcases hclass p2 hp2 n2 hn2 with rfl | h2
      · rfl
      · exfalso
        have hlt := h2.2.1
        rw [← hser12] at hlt
        exact Nat.lt_irrefl st.next hlt
    · rcases hclass p2 hp2 n2 hn2 with rfl | h2
      · exfalso
        have hlt := h1.2.1
        rw [hser12] at hlt
        exact Nat.lt_irrefl st.next hlt
      · exact hInv.serial_inj _ (hmemOf n1 h1.1) _ (hmemOf n2 h2.1) n1
          (self_mem_nodesD n1) n2 (self_mem_nodesD n2) hser12
  · show ∀ p ∈ ((dsId, dnew) :: st.cache), ∀ n ∈ nodesD p.2,
      RDataset.uris n = if RDataset.id n = main_uuid then [uri] else []
    intro p hp n hn
    rcases hclass p hp n hn with rfl | ⟨_, _, hu, _⟩
    · rfl
    · exact hu
  · show ∀ p ∈ ((dsId, dnew) :: st.cache), ∀ n ∈ nodesD p.2, prodOK db mp calls' n
    intro p hp n hn
    rcases hclass p hp n hn with rfl | ⟨_, _, _, hpo⟩
    · refine ⟨?_, ?_⟩
      · intro e he
        exact (hc2 e he).2
      · intro hnone
        obtain ⟨hcalls', hmp⟩ := hc1 hnone
        refine ⟨hmp, ?_⟩
        rw [hcalls']
        exact List.mem_cons_self _ _
    · exact prodOK_mono hcsub hpo
  · show calls'.Nodup
    cases hdb : db dsId with
    | none =>
      rw [(hc1 hdb).1]
      exact List.nodup_cons.mpr ⟨hdnotcalls, hInv.calls_nodup⟩
    | some e =>
      rw [(hc2 e hdb).1]
      exact hInv.calls_nodup
  · show (dsId :: st.misses).Nodup
    exact List.nodup_cons.mpr ⟨hdnotmisses, hInv.misses_nodup⟩
  · show ∀ i ∈ calls', (lookupC ((dsId, dnew) :: st.cache) i).isSome = true
    intro i hi
    rw [lookupC_cons]
    by_cases hik : dsId = i
    · rw [if_pos hik]
      rfl
    · rw [if_neg hik]
      have hio : i ∈ st.calls := by
        cases hdb : db dsId with
        | none =>
          rw [(hc1 hdb).1] at hi
          rcases List.mem_cons.mp hi with rfl | h
          · exact absurd rfl hik
          · exact h
        | some e =>
          rw [(hc2 e hdb).1] at hi
          exact hi
      exact hInv.calls_keys i hio
  · show ∀ i ∈ (dsId :: st.misses), (lookupC ((dsId, dnew) :: st.cache) i).isSome = true
    intro i hi
    rw [lookupC_cons]
    by_cases hik : dsId = i
    · rw [if_pos hik]
      rfl
    · rw [if_neg hik]
      rcases List.mem_cons.mp hi with rfl | h
      · exact absurd rfl hik
      · exact hInv.misses_keys i h
  · show ∀ i ∈ calls', db i = none
    intro i hi
    cases hdb : db dsId with
    | none =>
      rw [(hc1 hdb).1] at hi
      rcases List.mem_cons.mp hi with rfl | h
      · exact hdb
      · exact hInv.calls_db i h
    | some e =>
      rw [(hc2 e hdb).1] at hi
      exact hInv.calls_db i hi

theorem lookupC_cons_self (a : Nat) (v : RDataset) (c : List (Nat × RDataset))
    (h : RDataset.id v = a) : lookupC ((a, v) :: c) (RDataset.id v) = some v := by
  rw [h, lookupC_cons, if_pos rfl]

theorem resolve_ds_spec (db : Nat → Option DBEntry) (mp : Nat → Option Nat)
    (main_uuid : Nat) (uri : String) (dsId dsDoc : Nat) (rs : RSrcs) (st : RState)
    (d : RDataset) (st' : RState)
    (hInv : RInv db mp main_uuid uri st)
    (hrs : ∀ c ∈ childListR rs, lookupC st.cache (RDataset.id c) = some c)
    (hres : resolve_ds db mp main_uuid uri dsId dsDoc rs st = some (d, st')) :
    RInv db mp main_uuid uri st' ∧
      lookupC st'.cache (RDataset.id d) = some d ∧
      RDataset.id d = dsId ∧
      cacheLe st.cache st'.cache ∧
      st.calls ⊆ st'.calls := by
  rw [resolve_ds] at hres
  cases hc : lookupC st.cache dsId with
  | some cached =>
    rw [hc] at hres
    obtain ⟨rfl, rfl⟩ := Prod.mk.injEq .. ▸ Option.some.inj hres
    have hmem := lookupC_mem hc
    refine ⟨hInv, ?_, hInv.entry_id _ hmem, fun k v hv => hv, fun x hx => hx⟩
    exact hInv.closed _ hmem cached (self_mem_nodesD cached)
  | none =>
    rw [hc] at hres
    cases hdb : db dsId with
    | some e =>
      rw [hdb] at hres
      obtain ⟨rfl, rfl⟩ := Prod.mk.injEq .. ▸ Option.some.inj hres
      have hIns := rinv_insert db mp main_uuid uri st dsId dsDoc e.type_ rs st.calls hInv hrs hc
        (fun hn => Option.noConfusion (hdb.symm.trans hn))
        (fun e' he' => ⟨rfl, (Option.some.inj (hdb.symm.trans he')) ▸ rfl⟩)
      refine ⟨hIns, ?_, rfl, ?_, fun x hx => hx⟩
      · exact lookupC_cons_self _ _ _ rfl
      · intro k v hkv
        rw [lookupC_cons]
        by_cases hk : dsId = k
        · subst hk
          rw [hc] at hkv
          cases hkv
        · rw [if_neg hk]
          exact hkv
    | none =>
      rw [hdb] at hres
      cases hmp : mp dsDoc with
      | none =>
        rw [hmp] at hres
        cases hres
      | some p =>
        rw [hmp] at hres
        obtain ⟨rfl, rfl⟩ := Prod.mk.injEq .. ▸ Option.some.inj hres
        have hIns := rinv_insert db mp main_uuid uri st dsId dsDoc p rs (dsId :: st.calls)
          hInv hrs hc (fun _ => ⟨rfl, hmp⟩)
          (fun e' he' => Option.noConfusion (hdb.symm.trans he'))
        refine ⟨hIns, ?_, rfl, ?_, fun x hx => List.mem_cons_of_mem _ hx⟩
        · exact lookupC_cons_self _ _ _ rfl
        · intro k v hkv
          rw [lookupC_cons]
          by_cases hk : dsId = k
          · subst hk
            rw [hc] at hkv
            cases hkv
          · rw [if_neg hk]
            exact hkv

mutual
theorem remapN_spec (db : Nat → Option DBEntry) (mp : Nat → Option Nat)
    (main_uuid : Nat) (uri : String) :
    ∀ (t : DocNode) (st : RState) (d : RDataset) (st' : RState),
      RInv db mp main_uuid uri st →
      remapN db mp main_uuid uri t st = some (d, st') →
      RInv db mp main_uuid uri st' ∧
        lookupC st'.cache (RDataset.id d) = some d ∧
        RDataset.id d = DocNode.id t ∧
        cacheLe st.cache st'.cache ∧ st.calls ⊆ st'.calls
  | .node i dd s, st, d, st', hInv, hres => by
    rw [remapN] at hres
    cases hrs : remapS db mp main_uuid uri s st with
    | none =>
      rw [hrs] at hres
      cases hres
    | some pair =>
      obtain ⟨rs, st1⟩ := pair
      rw [hrs] at hres
      obtain ⟨hInv1, hch, hLe1, hcall1⟩ := remapS_spec db mp main_uuid uri s st rs st1 hInv hrs
      obtain ⟨hInv2, hlook, hid, hLe2, hcall2⟩ :=
        resolve_ds_spec db mp main_uuid uri i dd rs st1 d st' hInv1 hch hres
      exact ⟨hInv2, hlook, hid, fun k v hv => hLe2 k v (hLe1 k v hv),
        fun x hx => hcall2 (hcall1 hx)⟩
theorem remapS_spec (db : Nat → Option DBEntry) (mp : Nat → Option Nat)
    (main_uuid : Nat) (uri : String) :
    ∀ (s : SrcL) (st : RState) (rs : RSrcs) (st' : RState),
      RInv db mp main_uuid uri st →
      remapS db mp main_uuid uri s st = some (rs, st') →
      RInv db mp main_uuid uri st' ∧
        (∀ c ∈ childListR rs, lookupC st'.cache (RDataset.id c) = some c) ∧
        cacheLe st.cache st'.cache ∧ st.calls ⊆ st'.calls
  | .nil, st, rs, st', hInv, hres => by
    rw [remapS] at hres
    obtain ⟨rfl, rfl⟩ := Prod.mk.injEq .. ▸ Option.some.inj hres
    refine ⟨hInv, ?_, fun k v hv => hv, fun x hx => hx⟩
    intro c hc
    rw [childListR] at hc
    cases hc
  | .cons nm c r, st, rs, st', hInv, hres => by
    rw [remapS] at hres
    cases hc1 : remapN db mp main_uuid uri c st with
    | none =>
      rw [hc1] at hres
      cases hres
    | some pair1 =>
      obtain ⟨dc, st1⟩ := pair1
      rw [hc1] at hres
      have hres2 : (match remapS db mp main_uuid uri r st1 with
          | none => none
          | some (dr, st2) => some (RSrcs.cons nm dc dr, st2)) = some (rs, st') := hres
      cases hc2 : remapS db mp main_uuid uri r st1 with
      | none =>
        rw [hc2] at hres2
        cases hres2
      | some pair2 =>
        obtain ⟨dr, st2⟩ := pair2
        rw [hc2] at hres2
        obtain ⟨rfl, rfl⟩ := Prod.mk.injEq .. ▸ Option.some.inj hres2
        obtain ⟨hInv1, hlook1, _, hLe1, hcallLe1⟩ :=
          remapN_spec db mp main_uuid uri c st dc st1 hInv hc1
        obtain ⟨hInv2, hch2, hLe2, hcallLe2⟩ :=
          remapS_spec db mp main_uuid uri r st1 dr st2 hInv1 hc2
        refine ⟨hInv2, ?_, fun k v hv => hLe2 k v (hLe1 k v hv),
          fun x hx => hcallLe2 (hcallLe1 hx)⟩
        intro cd hcd
        have hcd2 : cd ∈ dc :: childListR dr := hcd
        rcases List.mem_cons.mp hcd2 with rfl | hmem
        · exact hLe2 _ _ hlook1
        · exact hch2 _ hmem
end

theorem self_mem_subN (t : DocNode) : t ∈ subN t := by
  cases t
  rw [subN]
  exact List.mem_cons_self _ _

mutual
theorem subN_trans : ∀ (root t x : DocNode), t ∈ subN root → x ∈ subN t → x ∈ subN root
  | .node i d s, t, x, ht, hx => by
    have ht2 : t ∈ DocNode.node i d s :: subS s := ht
    rcases List.mem_cons.mp ht2 with rfl | hts
    · exact hx
    · have : x ∈ subS s := subS_trans s t x hts hx
      rw [subN]
      exact List.mem_cons_of_mem _ this
theorem subS_trans : ∀ (s : SrcL) (t x : DocNode), t ∈ subS s → x ∈ subN t → x ∈ subS s
  | .nil, t, x, ht, hx => by
    rw [subS] at ht
    cases ht
  | .cons nm c r, t, x, ht, hx => by
    rw [subS] at ht ⊢
    rcases List.mem_append.mp ht with h | h
    · exact List.mem_append.mpr (Or.inl (subN_trans c t x h hx))
    · exact List.mem_append.mpr (Or.inr (subS_trans r t x h hx))
end

theorem resolve_ds_isSome (db : Nat → Option DBEntry) (mp : Nat → Option Nat)
    (main_uuid : Nat) (uri : String) (i dd : Nat) (rs : RSrcs) (st1 : RState)
    (h : db i = none → (mp dd).isSome = true) :
    ∃ r, resolve_ds db mp main_uuid uri i dd rs st1 = some r := by
  rw [resolve_ds]
  cases hc : lookupC st1.cache i with
  | some cached => exact ⟨_, rfl⟩
  | none =>
    cases hdb : db i with
    | some e => exact ⟨_, rfl⟩
    | none =>
      have hmp := h hdb
      cases hmpv : mp dd with
      | none =>
        rw [hmpv] at hmp
        cases hmp
      | some p => exact ⟨_, rfl⟩

mutual
theorem remapN_total (db : Nat → Option DBEntry) (mp : Nat → Option Nat)
    (main_uuid : Nat) (uri : String) (root : DocNode)
    (htot : ∀ x ∈ subN root, db (DocNode.id x) = none → (mp (DocNode.doc x)).isSome = true) :
    ∀ (t : DocNode), t ∈ subN root → ∀ st, ∃ r, remapN db mp main_uuid uri t st = some r
  | .node i dd s, ht, st => by
    have hsub : ∀ x ∈ subS s, x ∈ subN root := by
      intro x hx
      refine subN_trans root (.node i dd s) x ht ?_
      rw [subN]
      exact List.mem_cons_of_mem _ hx
    obtain ⟨⟨rs, st1⟩, hrs⟩ := remapS_total db mp main_uuid uri root htot s hsub st
    obtain ⟨r, hr⟩ := resolve_ds_isSome db mp main_uuid uri i dd rs st1
      (fun hdb => htot (.node i dd s) ht hdb)
    refine ⟨r, ?_⟩
    rw [remapN, hrs]
    exact hr
theorem remapS_total (db : Nat → Option DBEntry) (mp : Nat → Option Nat)
    (main_uuid : Nat) (uri : String) (root : DocNode)
    (htot : ∀ x ∈ subN root, db (DocNode.id x) = none → (mp (DocNode.doc x)).isSome = true) :
    ∀ (s : SrcL), (∀ x ∈ subS s, x ∈ subN root) → ∀ st,
      ∃ r, remapS db mp main_uuid uri s st = some r
  | .nil, _, st => ⟨(.nil, st), rfl⟩
  | .cons nm c r, hsub, st => by
    have hcmem : c ∈ subN root := hsub c (by
      rw [subS]
      exact List.mem_append.mpr (Or.inl (self_mem_subN c)))
    obtain ⟨⟨dc, st1⟩, hc1⟩ := remapN_total db mp main_uuid uri root htot c hcmem st
    obtain ⟨⟨dr, st2⟩, hc2⟩ := remapS_total db mp main_uuid uri root htot r
      (fun x hx => hsub x (by rw [subS]; exact List.mem_append.mpr (Or.inr hx))) st1
    refine ⟨(.cons nm dc dr, st2), ?_⟩
    rw [remapS, hc1]
    show (match remapS db mp main_uuid uri r st1 with
      | none => none
      | some (dr, st2) => some (RSrcs.cons nm dc dr, st2)) = _
    rw [hc2]
end

theorem resolve_ok_inv (fail verify : Bool) (db : Nat → Option DBEntry)
    (mp : Nat → Option Nat) (root : DocNode) (uri : String) (d : RDataset) (st : RState)
    (hres : resolve fail verify db mp root uri = .ok d st) :
    RInv db mp (DocNode.id root) uri st ∧
      lookupC st.cache (RDataset.id d) = some d ∧
      RDataset.id d = DocNode.id root := by
  rw [resolve] at hres
  by_cases h1 : fail = true ∧ missingLineageOf db root ≠ []
  · rw [if_pos h1] at hres
    cases hres
  · rw [if_neg h1] at hres
    by_cases h2 : (if verify = true then badLineageOf db root else []) ≠ []
    · rw [if_pos h2] at hres
      cases hres
    · rw [if_neg h2] at hres
      cases hr : remapN db mp (DocNode.id root) uri root ⟨[], 0, [], []⟩ with
      | none =>
        rw [hr] at hres
        cases hres
      | some pair =>
        obtain ⟨d', st''⟩ := pair
        rw [hr] at hres
        cases hres
        obtain ⟨hInv, hlook, hid, _, _⟩ := remapN_spec db mp (DocNode.id root) uri root
          ⟨[], 0, [], []⟩ d st (rinv_empty db mp (DocNode.id root) uri) hr
        exact ⟨hInv, hlook, hid⟩

/-- C2: with `fail_on_missing_lineage = true` and at least one non-root lineage
identity absent from the catalog bulk-lookup, resolution returns no dataset but
an error carrying exactly the missing identities; with the flag `false` (and
the matcher succeeding wherever the catalog has no entry, lineage verification
passing), resolution succeeds and every node absent from the catalog gets its
product from the Signature Matcher. -/
theorem resolve_missing_gate (verify : Bool) (db : Nat → Option DBEntry)
    (mp : Nat → Option Nat) (root : DocNode) (uri : String) :
    (missingLineageOf db root ≠ [] →
      resolve true verify db mp root uri = .missingLineage (missingLineageOf db root)) ∧
    ((∀ x ∈ subN root, db (DocNode.id x) = none → (mp (DocNode.doc x)).isSome = true) →
      badLineageOf db root = [] →
      ∃ d st, resolve false verify db mp root uri = .ok d st ∧
        ∀ n ∈ nodesD d, db (RDataset.id n) = none →
          mp (RDataset.doc n) = some (RDataset.product n)) ∧
    (∀ i, i ∈ missingLineageOf db root ↔
      (i ∈ idsN root ∧ i ≠ DocNode.id root ∧ db i = none)) := by
  refine ⟨?_, ?_, ?_⟩
  · intro hne
    rw [resolve, if_pos ⟨rfl, hne⟩]
  · intro htot hbad
    have h1 : ¬(false = true ∧ missingLineageOf db root ≠ []) := by simp
    have h2 : ¬((if verify = true then badLineageOf db root else []) ≠ []) := by
      cases verify <;> simp [hbad]
    obtain ⟨⟨d, st⟩, hr⟩ := remapN_total db mp (DocNode.id root) uri root htot root
      (self_mem_subN root) ⟨[], 0, [], []⟩
    refine ⟨d, st, ?_, ?_⟩
    · rw [resolve, if_neg h1, if_neg h2, hr]
    · obtain ⟨hInv, hlook, _, _, _⟩ := remapN_spec db mp (DocNode.id root) uri root
        ⟨[], 0, [], []⟩ d st (rinv_empty db mp (DocNode.id root) uri) hr
      intro n hn hdb
      have hdm := lookupC_mem hlook
      have hcl := hInv.closed _ hdm n hn
      have hnm := lookupC_mem hcl
      have hpo := hInv.prod_ok _ hnm n (self_mem_nodesD n)
      exact (hpo.2 hdb).1
  · intro i
    simp only [missingLineageOf, lineageUuids, allUuid, List.mem_filter, List.mem_dedup,
      Option.isNone_iff_eq_none, decide_eq_true_eq, and_assoc]

/-- Witness for C2: on a catalog with no entries, the root with lineage
identity 2 missing fails listing exactly `[2]` under the strict flag, and
resolves via the matcher under the permissive flag. -/
theorem resolve_missing_gate_witness :
    missingLineageOf dbNone root0 ≠ [] ∧
    resolve true true dbNone mp0 root0 "file:u" =
      .missingLineage (missingLineageOf dbNone root0) ∧
    (∀ x ∈ subN root0, dbNone (DocNode.id x) = none →
      (mp0 (DocNode.doc x)).isSome = true) ∧
    badLineageOf dbNone root0 = [] ∧
    (∃ d st, resolve false true dbNone mp0 root0 "file:u" = .ok d st ∧
      ∀ n ∈ nodesD d, dbNone (RDataset.id n) = none →
        mp0 (RDataset.doc n) = some (RDataset.product n)) := by
  have h1 : missingLineageOf dbNone root0 ≠ [] := by decide
  have h3 : ∀ x ∈ subN root0, dbNone (DocNode.id x) = none →
      (mp0 (DocNode.doc x)).isSome = true := by decide
  have h4 : badLineageOf dbNone root0 = [] := by decide
  exact ⟨h1, (resolve_missing_gate true dbNone mp0 root0 "file:u").1 h1, h3, h4,
    (resolve_missing_gate true dbNone mp0 root0 "file:u").2.1 h3 h4⟩

/-- C3: in one resolver invocation, equal identities in the resolved graph are
one shared object (equal in the model including the construction serial, which
is what Python reference equality is), serial numbers identify constructions
uniquely, and both the matcher-call trace and the construction (cache-miss)
trace are duplicate-free: at most one Signature Matcher or catalog-product
lookup per distinct identity. -/
theorem resolve_sharing (fail verify : Bool) (db : Nat → Option DBEntry)
    (mp : Nat → Option Nat) (root : DocNode) (uri : String) (d : RDataset) (st : RState)
    (hres : resolve fail verify db mp root uri = .ok d st) :
    (∀ n1 ∈ nodesD d, ∀ n2 ∈ nodesD d, RDataset.id n1 = RDataset.id n2 → n1 = n2) ∧
    (∀ n1 ∈ nodesD d, ∀ n2 ∈ nodesD d, RDataset.serial n1 = RDataset.serial n2 → n1 = n2) ∧
    st.calls.Nodup ∧ st.misses.Nodup := by
  obtain ⟨hInv, hlook, _⟩ := resolve_ok_inv fail verify db mp root uri d st hres
  have hdm := lookupC_mem hlook
  refine ⟨?_, ?_, hInv.calls_nodup, hInv.misses_nodup⟩
  · intro n1 hn1 n2 hn2 hid
    have h1 := hInv.closed _ hdm n1 hn1
    have h2 := hInv.closed _ hdm n2 hn2
    rw [hid] at h1
    exact Option.some.inj (h1.symm.trans h2)
  · intro n1 hn1 n2 hn2 hser
    exact hInv.serial_inj _ hdm _ hdm n1 hn1 n2 hn2 hser

/-- Witness for C3: the root with two references to ancestor 2 resolves to a
graph whose two occurrences of identity 2 are the same object `dC`. -/
theorem resolve_sharing_witness :
    resolve false true db2 mp0 root0 "file:u" = .ok dRoot stRoot ∧
    ((∀ n1 ∈ nodesD dRoot, ∀ n2 ∈ nodesD dRoot,
        RDataset.id n1 = RDataset.id n2 → n1 = n2) ∧
      (∀ n1 ∈ nodesD dRoot, ∀ n2 ∈ nodesD dRoot,
        RDataset.serial n1 = RDataset.serial n2 → n1 = n2) ∧
      stRoot.calls.Nodup ∧ stRoot.misses.Nodup) :=
  ⟨rfl, resolve_sharing false true db2 mp0 root0 "file:u" dRoot stRoot rfl⟩

/-- C4: in the resolved graph, a node whose identity is in the catalog
bulk-lookup result carries the catalogued product and the Signature Matcher was
never invoked on that identity; a node absent from the catalog carries the
matcher's product and the matcher was invoked on it. -/
theorem resolve_product_assignment (fail verify : Bool) (db : Nat → Option DBEntry)
    (mp : Nat → Option Nat) (root : DocNode) (uri : String) (d : RDataset) (st : RState)
    (hres : resolve fail verify db mp root uri = .ok d st) :
    ∀ n ∈ nodesD d,
      (∀ e, db (RDataset.id n) = some e →
        RDataset.product n = e.type_ ∧ RDataset.id n ∉ st.calls) ∧
      (db (RDataset.id n) = none →
        mp (RDataset.doc n) = some (RDataset.product n) ∧ RDataset.id n ∈ st.calls) := by
  obtain ⟨hInv, hlook, _⟩ := resolve_ok_inv fail verify db mp root uri d st hres
  have hdm := lookupC_mem hlook
  intro n hn
  have hcl := hInv.closed _ hdm n hn
  have hnm := lookupC_mem hcl
  have hpo := hInv.prod_ok _ hnm n (self_mem_nodesD n)
  refine ⟨fun e he => ⟨hpo.1 e he, ?_⟩, hpo.2⟩
  intro hmem
  rw [hInv.calls_db _ hmem] at he
  cases he

/-- Witness for C4: ancestor 2 is catalogued with product 77 and is assigned it
without a matcher call; the uncatalogued root 1 is assigned the matcher's
product and identity 1 is in the matcher-call trace. -/
theorem resolve_product_assignment_witness :
    resolve false true db2 mp0 root0 "file:u" = .ok dRoot stRoot ∧
    (RDataset.product dC = 77 ∧ RDataset.id dC ∉ stRoot.calls) ∧
    (mp0 (RDataset.doc dRoot) = some (RDataset.product dRoot) ∧
      RDataset.id dRoot ∈ stRoot.calls) := by
  have h := resolve_product_assignment false true db2 mp0 root0 "file:u" dRoot stRoot rfl
  have hmem : dC ∈ nodesD dRoot := by
    have hshape : nodesD dRoot = dRoot :: (nodesD dC ++ (nodesD dC ++ [])) := rfl
    rw [hshape]
    exact List.mem_cons_of_mem _ (List.mem_append.mpr (Or.inl (self_mem_nodesD dC)))
  refine ⟨rfl, ?_, ?_⟩
  · have hc := (h dC hmem).1 ⟨77, 20⟩ rfl
    exact ⟨hc.1, hc.2⟩
  · exact (h dRoot (self_mem_nodesD dRoot)).2 rfl

/-- C5: only the root node of the resolved graph carries the caller-supplied
location as its single uri; every node with a non-root identity has an empty
location list. -/
theorem resolve_root_location (fail verify : Bool) (db : Nat → Option DBEntry)
    (mp : Nat → Option Nat) (root : DocNode) (uri : String) (d : RDataset) (st : RState)
    (hres : resolve fail verify db mp root uri = .ok d st) :
    RDataset.uris d = [uri] ∧ RDataset.id d = DocNode.id root ∧
    (∀ n ∈ nodesD d, RDataset.id n ≠ DocNode.id root → RDataset.uris n = []) := by
  obtain ⟨hInv, hlook, hid⟩ := resolve_ok_inv fail verify db mp root uri d st hres
  have hdm := lookupC_mem hlook
  refine ⟨?_, hid, ?_⟩
  · have hu := hInv.uris_ok _ hdm d (self_mem_nodesD d)
    rw [hu, if_pos hid]
  · intro n hn hne
    have hcl := hInv.closed _ hdm n hn
    have hnm := lookupC_mem hcl
    have hu := hInv.uris_ok _ hnm n (self_mem_nodesD n)
    rw [hu, if_neg hne]

/-- Witness for C5: the resolved root carries `["file:u"]`; the lineage node of
identity 2 carries no location. -/
theorem resolve_root_location_witness :
    resolve false true db2 mp0 root0 "file:u" = .ok dRoot stRoot ∧
    (RDataset.uris dRoot = ["file:u"] ∧ RDataset.id dRoot = DocNode.id root0 ∧
      (∀ n ∈ nodesD dRoot, RDataset.id n ≠ DocNode.id root0 → RDataset.uris n = [])) :=
  ⟨rfl, resolve_root_location false true db2 mp0 root0 "file:u" dRoot stRoot rfl⟩
